import Mathlib

/-!
Verification of the enrichment pipeline of the find-the-company repository.

The definitions below are shallow embeddings of the TypeScript source:
  * `src/app/page.tsx` — input parsing (`parseTextToRows`), the bounded-concurrency
    batch run (`onRun`, modelled as a small-step scheduler), and the sequential
    directory-load run (`loadWealthManagers`).
  * `src/app/api/company/route.ts` — the answer-text parser (`extractCompanyData`)
    and the POST handler's validation.
  * `src/app/api/scrape-wealth-managers/details/route.ts` — the two regex-based
    profile-attribute extractors (`fetchProfileAttributes`, one copy per route).

Network calls are abstracted as oracles (an outcome per identifier); everything
in memory is modelled exactly as the source computes it.
-/

set_option maxRecDepth 4096

/-- Run status, from `type Status` in `src/app/page.tsx`. -/
inductive Status where
  | idle
  | validating
  | running
  | done
  | failed
deriving DecidableEq, Repr, Inhabited

/-- Type `InputRow` from `src/app/page.tsx`. -/
structure InputRow where
  id : Nat
  company_name : String
  valid : Bool
  note : Option String := none
deriving DecidableEq, Repr, Inhabited

/-- Type `ResultRow` from `src/app/page.tsx`; a JS field that is `undefined` is `none`. -/
structure ResultRow where
  company_name : String
  homepage : Option String := none
  contact_page : Option String := none
  phone : Option String := none
  country : Option String := none
  city : Option String := none
  ceo : Option String := none
  cofounders : Option (List String) := none
  status : Bool := true -- `true` models `"ok"`, `false` models `"error"`
  error : Option String := none
  raw_text : Option String := none
deriving DecidableEq, Repr, Inhabited

/-! ### Input parsing (`parseTextToRows` in `src/app/page.tsx`) -/

/-- JS whitespace characters relevant to `String.prototype.trim` (ASCII part). -/
def isJsWs (c : Char) : Bool :=
  c = ' ' ∨ c = '\t' ∨ c = '\n' ∨ c = '\r' ∨ c = '\x0b' ∨ c = '\x0c'

/-- JS `trim()` on a character list: drop whitespace from both ends. -/
def trimChars (l : List Char) : List Char :=
  ((l.dropWhile isJsWs).reverse.dropWhile isJsWs).reverse

/-- JS `toLowerCase()` on a character list. -/
def lowerChars (l : List Char) : List Char := l.map Char.toLower

/-- JS `s.trim()`. -/
def jsTrim (s : String) : String := String.mk (trimChars s.toList)

/-- JS `s.toLowerCase()`. -/
def jsLower (s : String) : String := String.mk (lowerChars s.toList)

/-- JS `text.split(/\n|,/)`: split on every newline or comma (keeping empty pieces). -/
def splitSep (l : List Char) : List (List Char) :=
  l.foldr
    (fun c acc =>
      if c = '\n' ∨ c = ',' then [] :: acc
      else
        match acc with
        | [] => [[c]]
        | t :: ts => (c :: t) :: ts)
    [[]]

/-- The token list of `parseTextToRows`: split, trim each piece, drop empties. -/
def tokensOf (text : String) : List String :=
  ((splitSep text.toList).map (fun t => String.mk (trimChars t))).filter (fun t => t ≠ "")

/-- Case-insensitive first-occurrence dedup (the `seen` set loop of `parseTextToRows`);
`seen` holds the lowercase keys already emitted. -/
def dedupFirst : List String → List String → List String
  | [], _ => []
  | t :: ts, seen =>
    if jsLower t ∈ seen then dedupFirst ts seen
    else t :: dedupFirst ts (jsLower t :: seen)

/-- Function `parseTextToRows` from `src/app/page.tsx`. -/
def parseTextToRows (text : String) : List InputRow :=
  ((dedupFirst (tokensOf text) []).enum).map
    (fun p => { id := p.1 + 1, company_name := p.2, valid := true })

/-! ### Rounding (`Math.round((completed / total) * 100)`) -/

/-- JS `Math.round(100 * c / t)` for naturals (round half away from zero):
`⌊(100c/t) + 1/2⌋ = (200c + t) / (2t)`. -/
def jsRound100 (c t : Nat) : Nat := (200 * c + t) / (2 * t)

/-! ### The bounded-concurrency batch run (`onRun`, real mode, `src/app/page.tsx`)

`onRun` validates the rows, allocates `out` (one slot per valid row), starts
`Math.min(4, navigator.hardwareConcurrency || 2)` runner loops that pop jobs
from a shared queue and run `worker(row, index)`; the worker writes its result
to its pre-assigned index and, in `finally`, bumps `completed`, publishes a
progress value and a `[...out.filter(Boolean)]` snapshot.  We model this as a
small-step system: `dispatch` pops the queue head into the in-flight set,
`complete j` finishes in-flight job `j`, `finishRun` is the `setStatus("done")`
after `Promise.all`.  The network call of each job is an oracle
`oc : Nat → FetchOutcome` fixed per run. -/

/-- Outcome of the `/api/company` fetch for one row: `ok` carries the response
fields already defaulted as in the worker (`data.company`, `data.homepage || ""`,
`data.contacts?.contact_page || ""`, `data.raw_text || ""`); `fail` carries the
thrown error's message (possibly `""`). -/
inductive FetchOutcome where
  | ok (company homepage contactPage rawText : String)
  | fail (msg : String)
deriving DecidableEq, Repr

def FetchOutcome.isOk : FetchOutcome → Bool
  | .ok _ _ _ _ => true
  | .fail _ => false

/-- The `ResultRow` the worker writes for row `row` given fetch outcome `oc`
(`src/app/page.tsx`, `worker`). -/
def workerEntry (row : InputRow) (oc : FetchOutcome) : ResultRow :=
  match oc with
  | .ok company homepage contactPage rawText =>
    { company_name := if company ≠ "" then company else row.company_name,
      homepage := some homepage, contact_page := some contactPage,
      status := true, raw_text := some rawText }
  | .fail msg =>
    { company_name := row.company_name, homepage := some "", contact_page := some "",
      status := false, error := some (if msg ≠ "" then msg else "Abruf fehlgeschlagen") }

/-- The valid subset: `inputRows.filter((r) => r.valid && r.company_name.trim().length > 0)`. -/
def validRows (inputRows : List InputRow) : List InputRow :=
  inputRows.filter (fun r => r.valid && (jsTrim r.company_name).length > 0)

/-- JS `Math.min(4, navigator.hardwareConcurrency || 2)`; `hc = 0` models a falsy
`hardwareConcurrency`. -/
def concLimit (hc : Nat) : Nat := min 4 (if hc = 0 then 2 else hc)

/-- Scheduler state for one `onRun` invocation.  `snapshots` records every
`setResults` argument in publication order, `progressLog` every `setProgress`
argument. -/
structure RunState where
  queue : List Nat
  inflight : List Nat
  out : List (Option ResultRow)
  completed : Nat
  progress : Nat
  status : Status
  snapshots : List (List ResultRow)
  progressLog : List Nat
deriving DecidableEq, Repr, Inhabited

/-- Scheduler events: pop-and-dispatch the queue head, finish in-flight job `j`,
and the final `setStatus("done")`. -/
inductive SchedEv where
  | dispatch
  | complete (j : Nat)
  | finishRun
deriving DecidableEq, Repr

/-- The entry the run produces for valid-row index `j`. -/
def entryFor (rows : List InputRow) (oc : Nat → FetchOutcome) (j : Nat) : ResultRow :=
  workerEntry (rows.getD j default) (oc j)

/-- The full, input-ordered final table of a run over `rows`. -/
def fullTable (rows : List InputRow) (oc : Nat → FetchOutcome) : List ResultRow :=
  (List.range rows.length).map (entryFor rows oc)

/-- One scheduler step.  A `dispatch` is enabled while a worker slot is free and
the queue is non-empty (`queue.shift()` is atomic in the JS event loop); a
`complete j` performs the worker's write-and-publish block for job `j`;
`finishRun` is enabled once all work is drained.  Disabled events leave the
state unchanged. -/
def schedStep (limit : Nat) (rows : List InputRow) (oc : Nat → FetchOutcome)
    (s : RunState) (e : SchedEv) : RunState :=
  match e with
  | .dispatch =>
    if s.status = Status.running ∧ s.inflight.length < limit then
      match s.queue with
      | [] => s
      | j :: rest => { s with queue := rest, inflight := s.inflight ++ [j] }
    else s
  | .complete j =>
    if s.status = Status.running ∧ j ∈ s.inflight then
      let out' := s.out.set j (some (entryFor rows oc j))
      { s with
        inflight := s.inflight.erase j,
        out := out',
        completed := s.completed + 1,
        progress := jsRound100 (s.completed + 1) rows.length,
        snapshots := s.snapshots ++ [out'.filterMap id],
        progressLog := s.progressLog ++ [jsRound100 (s.completed + 1) rows.length] }
    else s
  | .finishRun =>
    if s.status = Status.running ∧ s.queue = [] ∧ s.inflight = [] then
      { s with status := Status.done }
    else s

/-- State right after validation succeeded: `setProgress(0)`, `setResults([])`
have run, `out` is allocated with `n` empty slots, the queue holds the `n`
pre-assigned indices in input order. -/
def initRunState (n : Nat) : RunState :=
  { queue := List.range n, inflight := [], out := List.replicate n none,
    completed := 0, progress := 0, status := Status.running,
    snapshots := [[]], progressLog := [0] }

/-- State of the validation-failure path (`setStatus("failed")` after the
initial `setProgress(0)`/`setResults([])`). -/
def failedRunState : RunState :=
  { queue := [], inflight := [], out := [], completed := 0, progress := 0,
    status := Status.failed, snapshots := [[]], progressLog := [0] }

/-- State of the `if (!inputRows.length) return` path: nothing was published. -/
def idleRunState : RunState :=
  { queue := [], inflight := [], out := [], completed := 0, progress := 0,
    status := Status.idle, snapshots := [], progressLog := [] }

/-- The state of `onRun` (real mode) after the event sequence `evs`. -/
def onRunExec (inputRows : List InputRow) (oc : Nat → FetchOutcome) (hc : Nat)
    (evs : List SchedEv) : RunState :=
  if inputRows.isEmpty then idleRunState
  else
    let v := validRows inputRows
    if v.isEmpty then failedRunState
    else evs.foldl (schedStep (concLimit hc) v oc) (initRunState v.length)

/-! ### The scheduler invariant -/

/-- Invariant of every reachable `onRun` scheduler state: slots and queue are
consistent, each slot is written at most once with the outcome of its own
identifier, progress and the published logs are well-formed. -/
structure SInv (limit : Nat) (rows : List InputRow) (oc : Nat → FetchOutcome)
    (s : RunState) : Prop where
  npos : 0 < rows.length
  outlen : s.out.length = rows.length
  qrange : ∀ j ∈ s.queue, j < rows.length
  frange : ∀ j ∈ s.inflight, j < rows.length
  nd : (s.queue ++ s.inflight).Nodup
  pend : ∀ j ∈ s.queue ++ s.inflight, s.out[j]? = some none
  fill : ∀ j e, s.out[j]? = some (some e) → e = entryFor rows oc j
  fiff : ∀ j, j < rows.length → (s.out[j]? = some none ↔ (j ∈ s.queue ∨ j ∈ s.inflight))
  comp : s.completed + s.queue.length + s.inflight.length = rows.length
  bound : s.inflight.length ≤ limit
  stat : s.status = Status.running ∨ s.status = Status.done
  dn : s.status = Status.done → s.queue = [] ∧ s.inflight = []
  prog : s.progress = jsRound100 s.completed rows.length
  plog_mono : List.Chain' (· ≤ ·) s.progressLog
  plog_last : s.progressLog.getLast? = some s.progress
  snap_sub : ∀ t ∈ s.snapshots, List.Sublist t (fullTable rows oc)
  snap_mono : List.Chain' (· ≤ ·) (s.snapshots.map List.length)
  snap_last : s.snapshots.getLast? = some (s.out.filterMap id)

/-! ### A canonical completing schedule -/

/-- Dispatch/complete pairs for the given job list in order. -/
def pairEvs : List Nat → List SchedEv
  | [] => []
  | j :: rest => SchedEv.dispatch :: SchedEv.complete j :: pairEvs rest

/-- A schedule that processes all `n` jobs in input order and then finishes. -/
def completingEvs (n : Nat) : List SchedEv :=
  pairEvs (List.range n) ++ [SchedEv.finishRun]

/-! ### The directory-load run (`loadWealthManagers`, `src/app/page.tsx`)

After the company list arrives, `loadWealthManagers` publishes one placeholder
`ResultRow` per company (`status: "ok"`, no other fields), then sequentially
fetches details for each index `i`: on an `ok` response the entry is overwritten
in place with the fetched phone/country/city and a snapshot plus a progress
value are published; on a non-2xx response nothing is published; on a thrown
error the entry is overwritten with `status: "error"` and republished.  At the
end the status becomes `done` and progress `100`.  (The `setResults([])` at
function entry precedes the creation of the identifier list and is not part of
the batch.) -/

/-- Outcome of one `/api/scrape-wealth-managers/details` call. -/
inductive DetailOutcome where
  | ok (phone country city : Option String)
  | httpError
  | netThrow
deriving DecidableEq, Repr

/-- The initial placeholder entry for one company. -/
def placeholderRow (name : String) : ResultRow := { company_name := name }

/-- State of a `loadWealthManagers` run. -/
structure WMState where
  results : List ResultRow
  progress : Nat
  status : Status
  snapshots : List (List ResultRow)
  progressLog : List Nat
deriving DecidableEq, Repr, Inhabited

/-- One iteration of the detail loop at index `i` (`n` companies in total). -/
def wmStep (n : Nat) (det : Nat → DetailOutcome) (st : WMState) (i : Nat) : WMState :=
  match det i with
  | .ok p c ci =>
    let results := st.results.set i
      { st.results.getD i default with phone := p, country := c, city := ci }
    { st with
      results := results,
      snapshots := st.snapshots ++ [results],
      progress := jsRound100 (i + 1) n,
      progressLog := st.progressLog ++ [jsRound100 (i + 1) n] }
  | .httpError => st
  | .netThrow =>
    let results := st.results.set i
      { st.results.getD i default with status := false, error := some "Failed to fetch details" }
    { st with results := results, snapshots := st.snapshots ++ [results] }

/-- The detail loop over indices `i, i+1, …` (`k` iterations left). -/
def wmLoop (n : Nat) (det : Nat → DetailOutcome) : Nat → Nat → WMState → WMState
  | 0, _, st => st
  | k + 1, i, st => wmLoop n det k (i + 1) (wmStep n det st i)

/-- Function `loadWealthManagers` after the company list arrived: placeholder publish,
the sequential detail loop, then `setStatus("done")`/`setProgress(100)`. -/
def wmRun (companies : List String) (det : Nat → DetailOutcome) : WMState :=
  let n := companies.length
  let init : WMState :=
    { results := companies.map placeholderRow, progress := 0, status := Status.running,
      snapshots := [companies.map placeholderRow], progressLog := [0] }
  let afterLoop := wmLoop n det n 0 init
  { afterLoop with
    status := Status.done,
    progress := 100,
    progressLog := afterLoop.progressLog ++ [100] }

/-- Loop invariant of `loadWealthManagers`: the table always has one entry per
company with the company's name at its own index, every published snapshot
does too, the first published snapshot is the placeholder table, and the
published progress values are monotone and bounded by the loop position. -/
structure WMInv (companies : List String) (i : Nat) (st : WMState) : Prop where
  rlen : st.results.length = companies.length
  rname : ∀ m, m < companies.length →
    (st.results.getD m default).company_name = companies.getD m ""
  slen : ∀ t ∈ st.snapshots, t.length = companies.length
  sname : ∀ t ∈ st.snapshots, ∀ m, m < companies.length →
    (t.getD m default).company_name = companies.getD m ""
  shead : st.snapshots.head? = some (companies.map placeholderRow)
  pmono : List.Chain' (· ≤ ·) st.progressLog
  plast : ∀ p, st.progressLog.getLast? = some p → p ≤ jsRound100 i companies.length

/-! ### Concrete run fixtures used by the witnesses -/

/-- Five valid input rows. -/
def rowsA : List InputRow :=
  [{ id := 1, company_name := "Acme", valid := true },
   { id := 2, company_name := "Beta GmbH", valid := true },
   { id := 3, company_name := "Gamma", valid := true },
   { id := 4, company_name := "Delta", valid := true },
   { id := 5, company_name := "Epsilon", valid := true }]

/-- Fetch oracle where exactly identifier 2 fails with a network error. -/
def ocA : Nat → FetchOutcome := fun j =>
  if j = 2 then FetchOutcome.fail "HTTP 500"
  else FetchOutcome.ok "" "https://example.com" "https://example.com/contact" "raw"

/-- A schedule where workers complete out of input order. -/
def evsOutOfOrder : List SchedEv :=
  [SchedEv.dispatch, SchedEv.dispatch, SchedEv.dispatch, SchedEv.dispatch,
   SchedEv.complete 3, SchedEv.complete 1, SchedEv.dispatch, SchedEv.complete 0,
   SchedEv.complete 4, SchedEv.complete 2, SchedEv.finishRun]

/-- A partial schedule: two dispatches, one completion, run still in flight. -/
def evsPartial : List SchedEv :=
  [SchedEv.dispatch, SchedEv.dispatch, SchedEv.complete 0]

/-- Companies for the directory-load fixtures. -/
def companiesA : List String := ["Acme", "Beta GmbH"]

/-- Detail oracle: first profile yields data, second throws. -/
def detA : Nat → DetailOutcome := fun i =>
  if i = 0 then DetailOutcome.ok (some "+41 22 555 1234") (some "Switzerland") (some "Geneva")
  else DetailOutcome.netThrow

/-! ### Character-level scanning toolkit

The API routes extract data from HTML and answer text with JS regexes; the
functions below reproduce those regexes' leftmost-match semantics over
character lists. -/

/-- Case-insensitive prefix test (`/i` matching of a literal). -/
def startsCI : List Char → List Char → Bool
  | [], _ => true
  | _ :: _, [] => false
  | p :: ps, c :: cs => p.toLower == c.toLower && startsCI ps cs

/-- Suffix after the first case-insensitive occurrence of `pat`; `none` if absent. -/
def findCIAfter (pat : List Char) : List Char → Option (List Char)
  | [] => if startsCI pat [] then some [] else none
  | c :: rest =>
    if startsCI pat (c :: rest) then some ((c :: rest).drop pat.length)
    else findCIAfter pat rest

/-- Characters before the first case-insensitive occurrence of `pat` (all if absent). -/
def takeUntilCI (pat : List Char) : List Char → List Char
  | [] => []
  | c :: rest => if startsCI pat (c :: rest) then [] else c :: takeUntilCI pat rest

/-- Characters before the first occurrence of `ch` (all if absent). -/
def takeUntilChar (ch : Char) : List Char → List Char
  | [] => []
  | c :: rest => if c = ch then [] else c :: takeUntilChar ch rest

/-- Suffix after the first occurrence of `ch`; `none` if absent. -/
def dropThroughChar (ch : Char) : List Char → Option (List Char)
  | [] => none
  | c :: rest => if c = ch then some rest else dropThroughChar ch rest

/-- JS `replace(/<[^>]*>/g, '')` with explicit fuel: every complete `<…>` span is
removed; a `<` with no later `>` stays. -/
def stripTags : Nat → List Char → List Char
  | 0, _ => []
  | _ + 1, [] => []
  | fuel + 1, c :: rest =>
    if c = '<' then
      match dropThroughChar '>' rest with
      | some after => stripTags fuel after
      | none => c :: stripTags fuel rest
    else c :: stripTags fuel rest

def stripTagsAll (l : List Char) : List Char := stripTags (l.length + 1) l

/-- JS `replace(/^:+|:+$/g, '')`: strip leading and trailing colon runs. -/
def stripColonEnds (l : List Char) : List Char :=
  ((l.dropWhile (fun c => c = ':')).reverse.dropWhile (fun c => c = ':')).reverse

/-- JS `replace(':', '')`: remove only the first colon. -/
def removeFirstColon : List Char → List Char
  | [] => []
  | c :: rest => if c = ':' then rest else c :: removeFirstColon rest

/-- All lazy captures of the global regex `<tag[^>]*>([\s\S]*?)</tag>` (`/gi`):
find the opening literal, skip to the next `>`, capture up to the closing
literal, continue after it. -/
def tagBlocksAux (openPat closePat : List Char) : Nat → List Char → List (List Char)
  | 0, _ => []
  | fuel + 1, s =>
    match findCIAfter openPat s with
    | none => []
    | some afterOpen =>
      match dropThroughChar '>' afterOpen with
      | none => []
      | some afterGt =>
        match findCIAfter closePat afterGt with
        | none => []
        | some afterClose =>
          takeUntilCI closePat afterGt :: tagBlocksAux openPat closePat fuel afterClose

def tagBlocks (tag : String) (s : List Char) : List (List Char) :=
  tagBlocksAux ('<' :: tag.toList) ('<' :: '/' :: (tag.toList ++ ['>'])) (s.length + 1) s

/-- Scan the characters after `<div` (while still inside the tag, i.e. before
`>`) for a `class="…"` attribute whose quoted value contains
`table-responsive`; returns the suffix after the value's closing quote. -/
def classAttrTR : List Char → Option (List Char)
  | [] => none
  | c :: rest =>
    if c = '>' then none
    else if startsCI ("class=\"".toList) (c :: rest) then
      match dropThroughChar '"' ((c :: rest).drop "class=\"".toList.length) with
      | none => none
      | some afterQuote =>
        if (findCIAfter "table-responsive".toList
            (takeUntilChar '"' ((c :: rest).drop "class=\"".toList.length))).isSome then
          some afterQuote
        else classAttrTR rest
    else classAttrTR rest

/-- First capture of `<div[^>]*class="[^"]*table-responsive[^"]*"[^>]*>([\s\S]*?)</div>` (`/i`). -/
def findTRDiv : Nat → List Char → Option (List Char)
  | 0, _ => none
  | fuel + 1, s =>
    match findCIAfter "<div".toList s with
    | none => none
    | some afterOpen =>
      match classAttrTR afterOpen with
      | some afterQuote =>
        match dropThroughChar '>' afterQuote with
        | none => none
        | some afterGt =>
          match findCIAfter "</div>".toList afterGt with
          | none => none
          | some _ => some (takeUntilCI "</div>".toList afterGt)
      | none => findTRDiv fuel afterOpen

/-- Scan the characters after `<section` (before `>`) for the literal
`id="swfiProfileSingle"`; returns the suffix after it. -/
def idAttrProfile : List Char → Option (List Char)
  | [] => none
  | c :: rest =>
    if c = '>' then none
    else if startsCI "id=\"swfiProfileSingle\"".toList (c :: rest) then
      some ((c :: rest).drop "id=\"swfiProfileSingle\"".toList.length)
    else idAttrProfile rest

/-- First capture of `<section[^>]*id="swfiProfileSingle"[^>]*>([\s\S]*?)</section>` (`/i`). -/
def findProfileSection : Nat → List Char → Option (List Char)
  | 0, _ => none
  | fuel + 1, s =>
    match findCIAfter "<section".toList s with
    | none => none
    | some afterOpen =>
      match idAttrProfile afterOpen with
      | some afterId =>
        match dropThroughChar '>' afterId with
        | none => none
        | some afterGt =>
          match findCIAfter "</section>".toList afterGt with
          | none => none
          | some _ => some (takeUntilCI "</section>".toList afterGt)
      | none => findProfileSection fuel afterOpen

/-! ### The two profile-attribute extractors
(`src/app/api/scrape-wealth-managers/details/route.ts` holds the details-route
copy of `fetchProfileAttributes`; the list route holds a second, different
copy.)  The network fetch is abstracted away: the functions below are the pure
parsing applied to the fetched HTML; on fetch failure the route returns the
empty record. -/

/-- The sparse profile record `{ phone?, country?, city? }`. -/
structure ProfileResult where
  phone : Option String := none
  country : Option String := none
  city : Option String := none
deriving DecidableEq, Repr, Inhabited

/-- Cell texts of one `<tr>` row in the details route: nested tags stripped,
trimmed, leading/trailing colon runs removed, empty cells dropped. -/
def rowCells (row : List Char) : List String :=
  ((tagBlocks "td" row).map
    (fun c => String.mk (stripColonEnds (trimChars (stripTagsAll c))))).filter
    (fun s => s ≠ "")

/-- Key/value update of the details-route extractor for one row: needs ≥ 2
cells; cell 0 lowercased and trimmed is the key, cell 1 trimmed the value;
key synonyms `phone`/`telephone`/`tel` map to the phone field; each branch
fires only while its field is still unset and the value is non-empty. -/
def applyRow (r : ProfileResult) (cells : List String) : ProfileResult :=
  match cells with
  | c0 :: c1 :: _ =>
    let key := jsTrim (jsLower c0)
    let value := jsTrim c1
    if (key = "phone" ∨ key = "telephone" ∨ key = "tel") ∧ value ≠ "" ∧ r.phone = none then
      { r with phone := some value }
    else if key = "country" ∧ value ≠ "" ∧ r.country = none then
      { r with country := some value }
    else if key = "city" ∧ value ≠ "" ∧ r.city = none then
      { r with city := some value }
    else r
  | _ => r

def scanRows (rows : List (List Char)) (r : ProfileResult) : ProfileResult :=
  rows.foldl (fun acc row => applyRow acc (rowCells row)) r

/-- Phase 1 of the details-route extractor: every `<table>` of the whole
document, in document order. -/
def docTableScan (html : String) : ProfileResult :=
  (tagBlocks "table" html.toList).foldl (fun acc t => scanRows (tagBlocks "tr" t) acc) { }

/-- Pure parsing core of the details route's `fetchProfileAttributes`: the
whole-document table scan runs first, then the rows inside the
`table-responsive` div of the `swfiProfileSingle` section fill any fields the
first pass left empty. -/
def fetchProfileAttributes (html : String) : ProfileResult :=
  let l := html.toList
  let r1 := docTableScan html
  match findProfileSection (l.length + 1) l with
  | none => r1
  | some sec =>
    match findTRDiv (sec.length + 1) sec with
    | none => r1
    | some divContent => scanRows (tagBlocks "tr" divContent) r1

/-- The profile-section-scoped scan alone, starting from an empty record
(for comparison with the merged result). -/
def sectionOnlyScan (html : String) : ProfileResult :=
  let l := html.toList
  match findProfileSection (l.length + 1) l with
  | none => { }
  | some sec =>
    match findTRDiv (sec.length + 1) sec with
    | none => { }
    | some divContent => scanRows (tagBlocks "tr" divContent) { }

/-- Cell texts of one row in the list route's copy: tags stripped, trimmed,
only the first colon removed, and empty cells kept. -/
def rowCellsList (row : List Char) : List String :=
  (tagBlocks "td" row).map (fun c => String.mk (removeFirstColon (trimChars (stripTagsAll c))))

/-- Row update of the list route's copy: exactly two cells, key lowercased
(not re-trimmed), only the literal key `phone` (no synonyms), and a later
match overwrites an earlier one. -/
def applyRowList (r : ProfileResult) (cells : List String) : ProfileResult :=
  if cells.length = 2 then
    let key := jsLower (cells.getD 0 "")
    let value := cells.getD 1 ""
    if key = "phone" ∧ value ≠ "" then { r with phone := some value }
    else if key = "country" ∧ value ≠ "" then { r with country := some value }
    else if key = "city" ∧ value ≠ "" then { r with city := some value }
    else r
  else r

/-- Pure parsing core of the second `fetchProfileAttributes` copy (list
route): only the first `table-responsive` div is scanned. -/
def fetchProfileAttributesList (html : String) : ProfileResult :=
  let l := html.toList
  match findTRDiv (l.length + 1) l with
  | none => { }
  | some content =>
    (tagBlocks "tr" content).foldl (fun acc row => applyRowList acc (rowCellsList row)) { }

/-- Fixture: a profile page whose section table labels the phone `Telephone`. -/
def telFixtureHtml : String :=
  "<section id=\"swfiProfileSingle\"><div class=\"table-responsive\"><table><tr><td>Telephone</td><td>+41 22 555 1234</td></tr><tr><td>Country</td><td>Switzerland</td></tr><tr><td>City</td><td>Geneva</td></tr></table></div></section>"

/-- Fixture: a document-wide table says phone `111`, the profile-section rows
say phone `222`. -/
def mergedPrecedenceHtml : String :=
  "<table><tr><td>Phone</td><td>111</td></tr></table><section id=\"swfiProfileSingle\"><div class=\"table-responsive\"><tr><td>Phone</td><td>222</td></tr></div></section>"

/-- Fixture: only the profile-section rows carry a phone. -/
def sectionOnlyHtml : String :=
  "<section id=\"swfiProfileSingle\"><div class=\"table-responsive\"><tr><td>Phone</td><td>222</td></tr></div></section>"

/-! ### The answer-text parser (`extractCompanyData`, `src/app/api/company/route.ts`) -/

/-- Leftmost match of ``new RegExp(`${label}:\s*(.+?)(?:\n|$)`, 'i')``: at the
first case-insensitive occurrence of `label:` whose suffix still holds a
character other than `\n` the (backtracked) capture, after `trim()`, is the
run of non-newline characters that follows the whitespace after the colon. -/
def labelValAux (pat : List Char) : List Char → Option (List Char)
  | [] => none
  | c :: rest =>
    if startsCI pat (c :: rest) &&
        ((c :: rest).drop pat.length).any (fun ch => ch != '\n') then
      some (trimChars
        ((((c :: rest).drop pat.length).dropWhile isJsWs).takeWhile (fun ch => ch != '\n')))
    else labelValAux pat rest

/-- Function `extractAfterLabel` of the company route (default value `''`). -/
def extractAfterLabel (label text : String) : String :=
  match labelValAux (label.toList ++ [':']) text.toList with
  | some v => String.mk v
  | none => ""

/-- Function `extractSection`: first capture of
``new RegExp(`=== ${sectionName} ===([\s\S]*?)(?:=== |$)`, 'i')``, trimmed. -/
def extractSection (sectionName text : String) : String :=
  match findCIAfter ("=== " ++ sectionName ++ " ===").toList text.toList with
  | none => ""
  | some suffix => String.mk (trimChars (takeUntilCI "=== ".toList suffix))

/-- JS `replace(/^\[|\]$/g, '')`: drop one leading `[` and one trailing `]`. -/
def stripOuterBrackets (s : String) : String :=
  let l := s.toList
  let l1 := if l.head? = some '[' then l.tail else l
  let l2 := if l1.getLast? = some ']' then l1.dropLast else l1
  String.mk l2

/-- The fields of `CompanyResult` the parser can populate (`contacts` is
flattened to its only parsed member `contact_page`; the always-empty
collections `emails`, `phones`, `executives.cofounders`, `sources` are
omitted). -/
structure CompanyResult where
  company : String
  homepage : Option String := none
  contact_page : Option String := none
deriving DecidableEq, Repr, Inhabited

/-- Function `extractCompanyData` of the company route: the `CONTACT INFO` section only
gates the label extraction (the labels are searched in the whole text); a
label value that is empty or equal to the sentinel `Not found` leaves the
field absent; any other value is kept after bracket stripping. -/
def extractCompanyData (text companyName : String) : CompanyResult :=
  let base : CompanyResult := { company := companyName }
  let contactInfoSection := extractSection "CONTACT INFO" text
  if contactInfoSection ≠ "" then
    let homepage := extractAfterLabel "Homepage" text
    let r1 :=
      if homepage ≠ "" ∧ homepage ≠ "Not found" then
        { base with homepage := some (stripOuterBrackets homepage) }
      else base
    let contactPage := extractAfterLabel "Contact Page" text
    if contactPage ≠ "" ∧ contactPage ≠ "Not found" then
      { r1 with contact_page := some (stripOuterBrackets contactPage) }
    else r1
  else base

/-- Fixture: the spec's Answer-Text Parser example. -/
def answerExample : String :=
  "=== CONTACT INFO ===\nHomepage: https://example.com\nContact Page: Not found"

/-- Fixture: a bracket-wrapped placeholder value for the homepage label. -/
def answerBracket : String :=
  "=== CONTACT INFO ===\nHomepage: [placeholder]\nContact Page: Not found"

/-! ### The POST handler of `/api/company` (C10) -/

/-- JS `(body.company || body.name || '')`: the first JS-truthy (non-empty)
string, else `''`; a missing field is `none`. -/
def jsOrElse (a b : Option String) : String :=
  match a with
  | some s =>
    if s ≠ "" then s
    else
      match b with
      | some t => if t ≠ "" then t else ""
      | none => ""
  | none =>
    match b with
    | some t => if t ≠ "" then t else ""
    | none => ""

/-- The request body fields the handler reads (a non-JSON body parses to the
empty object, i.e. all fields `none`). -/
structure CompanyReqBody where
  company : Option String := none
  name : Option String := none
  enhance : Bool := false
  country : Option String := none
  city : Option String := none
deriving DecidableEq, Repr, Inhabited

/-- Observable outcome of one POST: HTTP status, how many answer-API
collaborator calls were made, and the error body if any. -/
structure PostOutcome where
  status : Nat
  answerApiCalls : Nat
  errorMsg : Option String := none
deriving DecidableEq, Repr, Inhabited

/-- The `POST` handler: trim the first truthy of `body.company`, `body.name`;
if empty, answer 400 with an error message and call no collaborator; otherwise
make exactly one answer-API call (`generateObject` in enhance mode,
`generateText` otherwise) — 200 on success, 500 when it throws. -/
def POSTcompany (collabOk : Bool) (body : CompanyReqBody) : PostOutcome :=
  let company := jsTrim (jsOrElse body.company body.name)
  if company = "" then
    { status := 400, answerApiCalls := 0,
      errorMsg := some "Body must include \x7b \"company\": \"<name>\" \x7d" }
  else if collabOk then { status := 200, answerApiCalls := 1 }
  else { status := 500, answerApiCalls := 1 }

/-! ## Theorems -/

/-! ### Properties: Rounding (`Math.round((completed / total) * 100)`) -/

theorem jsRound100_zero (t : Nat) : jsRound100 0 t = 0 := by
  unfold jsRound100
  cases t with
  | zero => simp
  | succ n => exact Nat.div_eq_of_lt (by omega)

theorem jsRound100_mono {c c' : Nat} (t : Nat) (h : c ≤ c') :
    jsRound100 c t ≤ jsRound100 c' t :=
  Nat.div_le_div_right (by omega)

theorem jsRound100_total {t : Nat} (ht : 0 < t) : jsRound100 t t = 100 := by
  unfold jsRound100
  have h1 : 200 * t + t = t + (2 * t) * 100 := by ring
  rw [h1, Nat.add_mul_div_left _ _ (by omega : 0 < 2 * t)]
  rw [Nat.div_eq_of_lt (by omega)]

theorem jsRound100_le_100 {c t : Nat} (h : c ≤ t) : jsRound100 c t ≤ 100 := by
  cases Nat.eq_zero_or_pos t with
  | inl h0 => subst h0; simp [jsRound100]
  | inr ht => calc jsRound100 c t ≤ jsRound100 t t := jsRound100_mono t h
    _ = 100 := jsRound100_total ht

/-! ### Properties: The bounded-concurrency batch run (`onRun`, real mode, `src/app/page.tsx`)

`onRun` validates the rows, allocates `out` (one slot per valid row), starts
`Math.min(4, navigator.hardwareConcurrency || 2)` runner loops that pop jobs
from a shared queue and run `worker(row, index)`; the worker writes its result
to its pre-assigned index and, in `finally`, bumps `completed`, publishes a
progress value and a `[...out.filter(Boolean)]` snapshot.  We model this as a
small-step system: `dispatch` pops the queue head into the in-flight set,
`complete j` finishes in-flight job `j`, `finishRun` is the `setStatus("done")`
after `Promise.all`.  The network call of each job is an oracle
`oc : Nat → FetchOutcome` fixed per run. -/

theorem concLimit_pos (hc : Nat) : 0 < concLimit hc := by
  unfold concLimit; split <;> omega

/-! ### Properties: Helper lemmas about `List (Option α)` tables -/

theorem filterMap_id_sublist_map_range {α : Type _} :
    ∀ (l : List (Option α)) (g : Nat → α),
      (∀ j e, l[j]? = some (some e) → e = g j) →
      List.Sublist (l.filterMap id) ((List.range l.length).map g)
  | [], _, _ => by simp
  | o :: t, g, h => by
    have ih := filterMap_id_sublist_map_range t (fun i => g (i + 1))
      (fun j e hj => h (j + 1) e (by simpa using hj))
    rw [List.length_cons, List.range_succ_eq_map, List.map_cons, List.map_map]
    have hmap : (List.range t.length).map (g ∘ (· + 1)) =
        (List.range t.length).map (fun i => g (i + 1)) := rfl
    cases o with
    | none =>
      rw [show ((none : Option α) :: t).filterMap id = t.filterMap id by simp, hmap]
      exact ih.cons _
    | some e =>
      have he : e = g 0 := h 0 e (by simp)
      subst he
      rw [show ((some (g 0)) :: t).filterMap id = g 0 :: t.filterMap id by simp, hmap]
      exact ih.cons₂ _

theorem length_filterMap_id_set {α : Type _} :
    ∀ (l : List (Option α)) (j : Nat) (e : α), l[j]? = some none →
      ((l.set j (some e)).filterMap id).length = (l.filterMap id).length + 1
  | [], j, e, h => by simp at h
  | o :: t, 0, e, h => by
    simp only [List.getElem?_cons_zero, Option.some.injEq] at h
    subst h
    simp
  | o :: t, j + 1, e, h => by
    have ih := length_filterMap_id_set t j e (by simpa using h)
    cases o <;> simp [ih]

theorem filterMap_id_eq_map_range {α : Type _} :
    ∀ (l : List (Option α)) (g : Nat → α),
      (∀ j, j < l.length → l[j]? = some (some (g j))) →
      l.filterMap id = (List.range l.length).map g
  | [], _, _ => by simp
  | o :: t, g, h => by
    have ih := filterMap_id_eq_map_range t (fun i => g (i + 1))
      (fun j hj => by simpa using h (j + 1) (by simpa using hj))
    have h0 : o = some (g 0) := by simpa using h 0 (by simp)
    subst h0
    rw [List.length_cons, List.range_succ_eq_map, List.map_cons, List.map_map]
    rw [show ((some (g 0)) :: t).filterMap id = g 0 :: t.filterMap id by simp]
    rw [ih]
    rfl

/-! ### Properties: The scheduler invariant -/

theorem sinv_init {limit : Nat} {rows : List InputRow} {oc : Nat → FetchOutcome}
    (hn : 0 < rows.length) : SInv limit rows oc (initRunState rows.length) where
  npos := hn
  outlen := by simp [initRunState]
  qrange := by simp [initRunState]
  frange := by simp [initRunState]
  nd := by simp [initRunState, List.nodup_range]
  pend := by
    intro j hj
    simp only [initRunState, List.append_nil, List.mem_range] at hj
    simp [initRunState, List.getElem?_replicate, hj]
  fill := by
    intro j e h
    simp only [initRunState] at h
    rw [List.getElem?_replicate] at h
    split at h <;> simp_all
  fiff := by
    intro j hj
    simp [initRunState, List.getElem?_replicate, hj]
  comp := by simp [initRunState]
  bound := by simp [initRunState]
  stat := Or.inl rfl
  dn := by intro h; simp [initRunState] at h
  prog := by simp [initRunState, jsRound100_zero]
  plog_mono := by simp [initRunState]
  plog_last := by simp [initRunState]
  snap_sub := by
    intro t ht
    simp only [initRunState, List.mem_singleton] at ht
    subst ht
    exact List.nil_sublist _
  snap_mono := by simp [initRunState]
  snap_last := by simp [initRunState]

theorem sinv_dispatch {limit : Nat} {rows : List InputRow} {oc : Nat → FetchOutcome}
    {s : RunState} (hinv : SInv limit rows oc s) {j : Nat} {rest : List Nat}
    (hq : s.queue = j :: rest) (hlt : s.inflight.length < limit) :
    SInv limit rows oc { s with queue := rest, inflight := s.inflight ++ [j] } where
  npos := hinv.npos
  outlen := hinv.outlen
  qrange := fun i hi => hinv.qrange i (by rw [hq]; exact List.mem_cons_of_mem _ hi)
  frange := fun i hi => by
    rcases List.mem_append.mp hi with h | h
    · exact hinv.frange i h
    · have hij : i = j := by simpa using h
      subst hij
      exact hinv.qrange i (by rw [hq]; exact List.mem_cons_self _ _)
  nd := by
    have h1 : rest ++ (s.inflight ++ [j]) = (rest ++ s.inflight) ++ [j] :=
      (List.append_assoc _ _ _).symm
    have h2 : List.Perm (rest ++ (s.inflight ++ [j])) (s.queue ++ s.inflight) := by
      rw [h1, hq]
      exact List.perm_append_singleton _ _
    exact h2.nodup_iff.mpr hinv.nd
  pend := fun i hi => by
    apply hinv.pend
    rw [hq]
    simp only [List.mem_append, List.mem_cons, List.mem_singleton] at hi ⊢
    tauto
  fill := hinv.fill
  fiff := fun i hi => by
    rw [hinv.fiff i hi, hq]
    simp only [List.mem_append, List.mem_cons, List.mem_singleton]
    tauto
  comp := by
    have h1 := hinv.comp
    rw [hq] at h1
    simp only [List.length_cons, List.length_append, List.length_nil] at h1 ⊢
    omega
  bound := by
    simp only [List.length_append, List.length_cons, List.length_nil]
    omega
  stat := hinv.stat
  dn := fun h => by
    have h1 := (hinv.dn h).1
    rw [hq] at h1
    cases h1
  prog := hinv.prog
  plog_mono := hinv.plog_mono
  plog_last := hinv.plog_last
  snap_sub := hinv.snap_sub
  snap_mono := hinv.snap_mono
  snap_last := hinv.snap_last

theorem sinv_complete {limit : Nat} {rows : List InputRow} {oc : Nat → FetchOutcome}
    {s : RunState} (hinv : SInv limit rows oc s) {j : Nat} (hj : j ∈ s.inflight) :
    SInv limit rows oc
      { s with
        inflight := s.inflight.erase j,
        out := s.out.set j (some (entryFor rows oc j)),
        completed := s.completed + 1,
        progress := jsRound100 (s.completed + 1) rows.length,
        snapshots := s.snapshots ++ [(s.out.set j (some (entryFor rows oc j))).filterMap id],
        progressLog := s.progressLog ++ [jsRound100 (s.completed + 1) rows.length] } := by
  have hjn : j < rows.length := hinv.frange j hj
  have hjq : j ∉ s.queue := fun hmem =>
    (List.nodup_append.mp hinv.nd).2.2 hmem hj
  have hfl_nd : s.inflight.Nodup := (List.nodup_append.mp hinv.nd).2.1
  have houtj : s.out[j]? = some none := hinv.pend j (List.mem_append.mpr (Or.inr hj))
  have hjlen : j < s.out.length := by rw [hinv.outlen]; exact hjn
  have hset_j : (s.out.set j (some (entryFor rows oc j)))[j]? = some (some (entryFor rows oc j)) := by
    rw [List.getElem?_set_self]
    simp [hjlen]
  have hfill' : ∀ i e, (s.out.set j (some (entryFor rows oc j)))[i]? = some (some e) →
      e = entryFor rows oc i := by
    intro i e he
    by_cases hij : i = j
    · subst hij
      rw [hset_j] at he
      exact (Option.some.inj (Option.some.inj he)).symm
    · rw [List.getElem?_set_ne (fun hh => hij hh.symm)] at he
      exact hinv.fill i e he
  refine
    { npos := hinv.npos, outlen := ?_, qrange := hinv.qrange, frange := ?_, nd := ?_,
      pend := ?_, fill := hfill', fiff := ?_, comp := ?_, bound := ?_, stat := hinv.stat,
      dn := ?_, prog := rfl, plog_mono := ?_, plog_last := ?_, snap_sub := ?_,
      snap_mono := ?_, snap_last := ?_ }
  · simp [List.length_set, hinv.outlen]
  · exact fun i hi => hinv.frange i (List.mem_of_mem_erase hi)
  · exact hinv.nd.sublist ((List.erase_sublist j s.inflight).append_left s.queue)
  · intro i hi
    rcases List.mem_append.mp hi with h | h
    · have hij : j ≠ i := fun he => hjq (he ▸ h)
      rw [List.getElem?_set_ne hij]
      exact hinv.pend i (List.mem_append.mpr (Or.inl h))
    · obtain ⟨hne, hmem⟩ := (List.Nodup.mem_erase_iff hfl_nd).mp h
      rw [List.getElem?_set_ne (fun he => hne he.symm)]
      exact hinv.pend i (List.mem_append.mpr (Or.inr hmem))
  · intro i hi
    by_cases hij : i = j
    · subst hij
      rw [hset_j]
      apply iff_of_false
      · intro h
        cases Option.some.inj h
      · rintro (h | h)
        · exact hjq h
        · exact ((List.Nodup.mem_erase_iff hfl_nd).mp h).1 rfl
    · rw [List.getElem?_set_ne (fun hh => hij hh.symm), hinv.fiff i hi]
      constructor
      · rintro (h | h)
        · exact Or.inl h
        · exact Or.inr ((List.Nodup.mem_erase_iff hfl_nd).mpr ⟨hij, h⟩)
      · rintro (h | h)
        · exact Or.inl h
        · exact Or.inr (List.mem_of_mem_erase h)
  · have h1 := hinv.comp
    have h2 : (s.inflight.erase j).length = s.inflight.length - 1 :=
      List.length_erase_of_mem hj
    have h3 : 0 < s.inflight.length := List.length_pos_of_mem hj
    simp only [h2]
    omega
  · exact le_trans (List.erase_sublist j s.inflight).length_le hinv.bound
  · intro h
    have h2 := (hinv.dn h).2
    rw [h2] at hj
    cases hj
  · rw [List.chain'_append]
    refine ⟨hinv.plog_mono, List.chain'_singleton _, ?_⟩
    intro x hx y hy
    rw [hinv.plog_last] at hx
    simp only [List.head?_cons, Option.mem_def, Option.some.injEq] at hx hy
    subst hx; subst hy
    rw [hinv.prog]
    exact jsRound100_mono _ (Nat.le_succ _)
  · rw [List.getLast?_concat]
  · intro t ht
    rcases List.mem_append.mp ht with h | h
    · exact hinv.snap_sub t h
    · have heq : t = (s.out.set j (some (entryFor rows oc j))).filterMap id := by
        simpa using h
      subst heq
      have hsub := filterMap_id_sublist_map_range
        (s.out.set j (some (entryFor rows oc j))) (entryFor rows oc) hfill'
      rw [List.length_set, hinv.outlen] at hsub
      exact hsub
  · rw [List.map_append, List.chain'_append]
    refine ⟨hinv.snap_mono, by simp, ?_⟩
    intro x hx y hy
    rw [List.getLast?_map, hinv.snap_last] at hx
    simp only [List.map_cons, List.map_nil, List.head?_cons, Option.map_some',
      Option.mem_def, Option.some.injEq] at hx hy
    subst hx; subst hy
    rw [length_filterMap_id_set s.out j _ houtj]
    omega
  · rw [List.getLast?_concat]

theorem sinv_finish {limit : Nat} {rows : List InputRow} {oc : Nat → FetchOutcome}
    {s : RunState} (hinv : SInv limit rows oc s)
    (hcond : s.status = Status.running ∧ s.queue = [] ∧ s.inflight = []) :
    SInv limit rows oc { s with status := Status.done } where
  npos := hinv.npos
  outlen := hinv.outlen
  qrange := hinv.qrange
  frange := hinv.frange
  nd := hinv.nd
  pend := hinv.pend
  fill := hinv.fill
  fiff := hinv.fiff
  comp := hinv.comp
  bound := hinv.bound
  stat := Or.inr rfl
  dn := fun _ => ⟨hcond.2.1, hcond.2.2⟩
  prog := hinv.prog
  plog_mono := hinv.plog_mono
  plog_last := hinv.plog_last
  snap_sub := hinv.snap_sub
  snap_mono := hinv.snap_mono
  snap_last := hinv.snap_last

theorem sinv_step {limit : Nat} {rows : List InputRow} {oc : Nat → FetchOutcome}
    {s : RunState} (hinv : SInv limit rows oc s) (e : SchedEv) :
    SInv limit rows oc (schedStep limit rows oc s e) := by
  cases e with
  | dispatch =>
    simp only [schedStep]
    split
    · next hcond =>
      cases hq : s.queue with
      | nil => exact hinv
      | cons j rest => exact sinv_dispatch hinv hq hcond.2
    · exact hinv
  | complete j =>
    simp only [schedStep]
    split
    · next hcond => exact sinv_complete hinv hcond.2
    · exact hinv
  | finishRun =>
    simp only [schedStep]
    split
    · next hcond => exact sinv_finish hinv hcond
    · exact hinv

theorem sinv_exec {limit : Nat} {rows : List InputRow} {oc : Nat → FetchOutcome}
    {s : RunState} (hinv : SInv limit rows oc s) (evs : List SchedEv) :
    SInv limit rows oc (evs.foldl (schedStep limit rows oc) s) := by
  induction evs generalizing s with
  | nil => exact hinv
  | cons e evs ih => exact ih (sinv_step hinv e)

/-! ### Properties: A canonical completing schedule -/

theorem step_dispatch_proj (limit : Nat) (rows : List InputRow) (oc : Nat → FetchOutcome)
    {s : RunState} {j : Nat} {rest : List Nat} (hst : s.status = Status.running)
    (hq : s.queue = j :: rest) (hlt : s.inflight.length < limit) :
    (schedStep limit rows oc s SchedEv.dispatch).queue = rest ∧
    (schedStep limit rows oc s SchedEv.dispatch).inflight = s.inflight ++ [j] ∧
    (schedStep limit rows oc s SchedEv.dispatch).status = Status.running := by
  simp only [schedStep]
  rw [if_pos ⟨hst, hlt⟩, hq]
  exact ⟨rfl, rfl, hst⟩

theorem step_complete_proj (limit : Nat) (rows : List InputRow) (oc : Nat → FetchOutcome)
    {s : RunState} {j : Nat} (hst : s.status = Status.running) (hj : j ∈ s.inflight) :
    (schedStep limit rows oc s (SchedEv.complete j)).queue = s.queue ∧
    (schedStep limit rows oc s (SchedEv.complete j)).inflight = s.inflight.erase j ∧
    (schedStep limit rows oc s (SchedEv.complete j)).status = Status.running := by
  simp only [schedStep]
  rw [if_pos ⟨hst, hj⟩]
  exact ⟨rfl, rfl, hst⟩

theorem pairEvs_drain (limit : Nat) (rows : List InputRow) (oc : Nat → FetchOutcome)
    (hl : 0 < limit) :
    ∀ (q : List Nat) (s : RunState), s.status = Status.running → s.queue = q → s.inflight = [] →
      (((pairEvs q).foldl (schedStep limit rows oc) s).status = Status.running ∧
       ((pairEvs q).foldl (schedStep limit rows oc) s).queue = [] ∧
       ((pairEvs q).foldl (schedStep limit rows oc) s).inflight = []) := by
  intro q
  induction q with
  | nil =>
    intro s hst hq hf
    exact ⟨hst, hq, hf⟩
  | cons j rest ih =>
    intro s hst hq hf
    have hlt : s.inflight.length < limit := by rw [hf]; simpa using hl
    obtain ⟨d1, d2, d3⟩ := step_dispatch_proj limit rows oc hst hq hlt
    obtain ⟨c1, c2, c3⟩ := step_complete_proj limit rows oc d3
      (show j ∈ (schedStep limit rows oc s SchedEv.dispatch).inflight by
        rw [d2, hf]; simp)
    simp only [pairEvs, List.foldl_cons]
    apply ih
    · exact c3
    · rw [c1, d1]
    · rw [c2, d2, hf]
      simp

theorem completingEvs_done (limit : Nat) (rows : List InputRow) (oc : Nat → FetchOutcome)
    (hl : 0 < limit) (n : Nat) :
    ((completingEvs n).foldl (schedStep limit rows oc) (initRunState n)).status =
      Status.done := by
  unfold completingEvs
  rw [List.foldl_append]
  obtain ⟨h1, h2, h3⟩ := pairEvs_drain limit rows oc hl (List.range n) (initRunState n)
    rfl rfl rfl
  simp only [List.foldl_cons, List.foldl_nil, schedStep]
  rw [if_pos ⟨h1, h2, h3⟩]

theorem validRows_length_pos {inputRows : List InputRow} (hval : validRows inputRows ≠ []) :
    0 < (validRows inputRows).length :=
  List.length_pos.mpr hval

theorem onRunExec_eq_foldl (inputRows : List InputRow) (oc : Nat → FetchOutcome) (hc : Nat)
    (evs : List SchedEv) (hne : inputRows ≠ []) (hval : validRows inputRows ≠ []) :
    onRunExec inputRows oc hc evs =
      evs.foldl (schedStep (concLimit hc) (validRows inputRows) oc)
        (initRunState (validRows inputRows).length) := by
  simp only [onRunExec]
  rw [if_neg (by simpa using hne), if_neg (by simpa using hval)]

theorem onRunExec_sinv (inputRows : List InputRow) (oc : Nat → FetchOutcome) (hc : Nat)
    (evs : List SchedEv) (hne : inputRows ≠ []) (hval : validRows inputRows ≠ []) :
    SInv (concLimit hc) (validRows inputRows) oc (onRunExec inputRows oc hc evs) := by
  rw [onRunExec_eq_foldl inputRows oc hc evs hne hval]
  exact sinv_exec (sinv_init (validRows_length_pos hval)) evs

theorem onRunExec_reaches_done (inputRows : List InputRow) (oc : Nat → FetchOutcome) (hc : Nat)
    (hne : inputRows ≠ []) (hval : validRows inputRows ≠ []) :
    (onRunExec inputRows oc hc (completingEvs (validRows inputRows).length)).status =
      Status.done := by
  rw [onRunExec_eq_foldl inputRows oc hc _ hne hval]
  exact completingEvs_done (concLimit hc) (validRows inputRows) oc (concLimit_pos hc) _

/-! ### Properties: The directory-load run (`loadWealthManagers`, `src/app/page.tsx`)

After the company list arrives, `loadWealthManagers` publishes one placeholder
`ResultRow` per company (`status: "ok"`, no other fields), then sequentially
fetches details for each index `i`: on an `ok` response the entry is overwritten
in place with the fetched phone/country/city and a snapshot plus a progress
value are published; on a non-2xx response nothing is published; on a thrown
error the entry is overwritten with `status: "error"` and republished.  At the
end the status becomes `done` and progress `100`.  (The `setResults([])` at
function entry precedes the creation of the identifier list and is not part of
the batch.) -/

theorem getD_set_self {α : Type _} (l : List α) (i : Nat) (a d : α) (h : i < l.length) :
    (l.set i a).getD i d = a := by
  rw [List.getD_eq_getElem?_getD, List.getElem?_set_self h]
  rfl

theorem getD_set_ne {α : Type _} (l : List α) (i m : Nat) (a d : α) (h : i ≠ m) :
    (l.set i a).getD m d = l.getD m d := by
  rw [List.getD_eq_getElem?_getD, List.getElem?_set_ne h, ← List.getD_eq_getElem?_getD]

theorem wmStep_inv (companies : List String) (det : Nat → DetailOutcome) (i : Nat)
    (st : WMState) (h : WMInv companies i st) :
    WMInv companies (i + 1) (wmStep companies.length det st i) := by
  have hname_set : ∀ (e : ResultRow),
      e.company_name = (st.results.getD i default).company_name →
      ∀ m, m < companies.length →
        ((st.results.set i e).getD m default).company_name = companies.getD m "" := by
    intro e he m hm
    by_cases him : i = m
    · subst him
      by_cases hil : i < st.results.length
      · rw [getD_set_self st.results i e default hil, he]
        exact h.rname i hm
      · rw [List.set_eq_of_length_le (by omega)]
        exact h.rname i hm
    · rw [getD_set_ne st.results i m e default him]
      exact h.rname m hm
  cases hdet : det i with
  | httpError =>
    simp only [wmStep, hdet]
    exact
      { rlen := h.rlen, rname := h.rname, slen := h.slen, sname := h.sname,
        shead := h.shead, pmono := h.pmono,
        plast := fun p hp =>
          le_trans (h.plast p hp) (jsRound100_mono companies.length (Nat.le_succ i)) }
  | ok p c ci =>
    simp only [wmStep, hdet]
    refine
      { rlen := ?_, rname := ?_, slen := ?_, sname := ?_, shead := ?_, pmono := ?_,
        plast := ?_ }
    · simpa using h.rlen
    · exact hname_set _ rfl
    · intro t ht
      rcases List.mem_append.mp ht with hmem | hmem
      · exact h.slen t hmem
      · rw [List.mem_singleton.mp hmem]
        simpa using h.rlen
    · intro t ht
      rcases List.mem_append.mp ht with hmem | hmem
      · exact h.sname t hmem
      · rw [List.mem_singleton.mp hmem]
        exact hname_set _ rfl
    · rw [List.head?_append]
      simp [h.shead]
    · rw [List.chain'_append]
      refine ⟨h.pmono, List.chain'_singleton _, ?_⟩
      intro x hx y hy
      simp only [List.head?_cons, Option.mem_def, Option.some.injEq] at hy
      subst hy
      exact le_trans (h.plast x hx) (jsRound100_mono companies.length (Nat.le_succ i))
    · intro q hq
      rw [List.getLast?_concat] at hq
      cases hq
      exact le_refl _
  | netThrow =>
    simp only [wmStep, hdet]
    refine
      { rlen := ?_, rname := ?_, slen := ?_, sname := ?_, shead := ?_, pmono := h.pmono,
        plast := ?_ }
    · simpa using h.rlen
    · exact hname_set _ rfl
    · intro t ht
      rcases List.mem_append.mp ht with hmem | hmem
      · exact h.slen t hmem
      · rw [List.mem_singleton.mp hmem]
        simpa using h.rlen
    · intro t ht
      rcases List.mem_append.mp ht with hmem | hmem
      · exact h.sname t hmem
      · rw [List.mem_singleton.mp hmem]
        exact hname_set _ rfl
    · rw [List.head?_append]
      simp [h.shead]
    · intro q hq
      exact le_trans (h.plast q hq) (jsRound100_mono companies.length (Nat.le_succ i))

theorem wmLoop_inv (companies : List String) (det : Nat → DetailOutcome) :
    ∀ (k i : Nat) (st : WMState), WMInv companies i st →
      WMInv companies (i + k) (wmLoop companies.length det k i st)
  | 0, i, st, h => by simpa [wmLoop] using h
  | k + 1, i, st, h => by
    have h2 := wmLoop_inv companies det k (i + 1) _ (wmStep_inv companies det i st h)
    have harith : i + 1 + k = i + (k + 1) := by omega
    rw [harith] at h2
    simpa [wmLoop] using h2

theorem wmInit_inv (companies : List String) :
    WMInv companies 0
      { results := companies.map placeholderRow, progress := 0, status := Status.running,
        snapshots := [companies.map placeholderRow], progressLog := [0] } where
  rlen := by simp
  rname := by
    intro m hm
    rw [List.getD_eq_getElem?_getD, List.getElem?_map]
    rw [List.getElem?_eq_getElem hm]
    simp only [Option.map_some', Option.getD_some]
    rw [List.getD_eq_getElem?_getD, List.getElem?_eq_getElem hm]
    rfl
  slen := by
    intro t ht
    simp only [List.mem_singleton] at ht
    subst ht
    simp
  sname := by
    intro t ht m hm
    simp only [List.mem_singleton] at ht
    subst ht
    rw [List.getD_eq_getElem?_getD, List.getElem?_map, List.getElem?_eq_getElem hm]
    simp only [Option.map_some', Option.getD_some]
    rw [List.getD_eq_getElem?_getD, List.getElem?_eq_getElem hm]
    rfl
  shead := rfl
  pmono := List.chain'_singleton _
  plast := by
    intro p hp
    cases hp
    simp [jsRound100_zero]

theorem wmRun_inv (companies : List String) (det : Nat → DetailOutcome) :
    WMInv companies companies.length (wmLoop companies.length det companies.length 0
      { results := companies.map placeholderRow, progress := 0, status := Status.running,
        snapshots := [companies.map placeholderRow], progressLog := [0] }) := by
  have := wmLoop_inv companies det companies.length 0 _ (wmInit_inv companies)
  simpa using this

/-! ### Properties: Final-table lemma for completed runs -/

theorem onRunExec_done_filterMap (inputRows : List InputRow) (oc : Nat → FetchOutcome)
    (hc : Nat) (evs : List SchedEv) (hne : inputRows ≠ []) (hval : validRows inputRows ≠ [])
    (hdone : (onRunExec inputRows oc hc evs).status = Status.done) :
    (onRunExec inputRows oc hc evs).out.filterMap id = fullTable (validRows inputRows) oc := by
  have hinv := onRunExec_sinv inputRows oc hc evs hne hval
  obtain ⟨hq, hf⟩ := hinv.dn hdone
  have hall : ∀ j, j < (onRunExec inputRows oc hc evs).out.length →
      (onRunExec inputRows oc hc evs).out[j]? =
        some (some (entryFor (validRows inputRows) oc j)) := by
    intro j hj
    have hjn : j < (validRows inputRows).length := by rw [← hinv.outlen]; exact hj
    have hnn : ¬ ((onRunExec inputRows oc hc evs).out[j]? = some none) := by
      rw [hinv.fiff j hjn, hq, hf]
      simp
    cases hxo : (onRunExec inputRows oc hc evs).out[j]? with
    | none =>
      have := List.getElem?_eq_none_iff.mp hxo
      omega
    | some x =>
      cases x with
      | none => exact absurd hxo hnn
      | some e =>
        have he := hinv.fill j e hxo
        rw [he]
  have heq := filterMap_id_eq_map_range (onRunExec inputRows oc hc evs).out
    (entryFor (validRows inputRows) oc) hall
  rw [heq, hinv.outlen]
  rfl

theorem fullTable_length (rows : List InputRow) (oc : Nat → FetchOutcome) :
    (fullTable rows oc).length = rows.length := by
  simp [fullTable]

theorem fullTable_getD (rows : List InputRow) (oc : Nat → FetchOutcome) (i : Nat)
    (hi : i < rows.length) :
    (fullTable rows oc).getD i default = workerEntry (rows.getD i default) (oc i) := by
  unfold fullTable
  rw [List.getD_eq_getElem?_getD, List.getElem?_map, List.getElem?_range hi]
  rfl

theorem mem_of_getLast? {α : Type _} : ∀ {l : List α} {a : α}, l.getLast? = some a → a ∈ l
  | [], a, h => by cases h
  | [x], a, h => by
    simp only [List.getLast?_singleton, Option.some.injEq] at h
    simp [h]
  | x :: y :: t, a, h => by
    rw [List.getLast?_cons_cons] at h
    exact List.mem_cons_of_mem x (mem_of_getLast? h)

/-- C1: for every non-empty input with at least one valid row, once the run
reaches `Done` the result table (the final published `out.filter(Boolean)`) has
exactly one entry per valid row, and the entry at index `i` is the worker's
outcome for the `i`-th valid identifier — for every schedule, i.e. regardless
of the order in which workers complete. -/
theorem C1_table_matches_input_order (inputRows : List InputRow) (oc : Nat → FetchOutcome)
    (hc : Nat) (evs : List SchedEv) (hne : inputRows ≠ []) (hval : validRows inputRows ≠ [])
    (hdone : (onRunExec inputRows oc hc evs).status = Status.done) :
    ((onRunExec inputRows oc hc evs).out.filterMap id).length = (validRows inputRows).length ∧
    ∀ i, i < (validRows inputRows).length →
      ((onRunExec inputRows oc hc evs).out.filterMap id).getD i default =
        workerEntry ((validRows inputRows).getD i default) (oc i) := by
  rw [onRunExec_done_filterMap inputRows oc hc evs hne hval hdone]
  exact ⟨fullTable_length _ oc, fun i hi => fullTable_getD _ oc i hi⟩

theorem C1_witness :
    ((onRunExec rowsA ocA 4 evsOutOfOrder).out.filterMap id).length = (validRows rowsA).length ∧
    ∀ i, i < (validRows rowsA).length →
      ((onRunExec rowsA ocA 4 evsOutOfOrder).out.filterMap id).getD i default =
        workerEntry ((validRows rowsA).getD i default) (ocA i) :=
  C1_table_matches_input_order rowsA ocA 4 evsOutOfOrder (by decide) (by decide) (by decide)

/-- C2 counterexample: with five identifiers, the snapshot published at batch
begin is empty and the snapshot published after the first completion has a
single entry — not one `ResultEntry` per identifier, because `onRun` publishes
`out.filter(Boolean)`, which drops the slots that have not completed yet. -/
theorem C2_counterexample :
    (validRows rowsA).length = 5 ∧
    (onRunExec rowsA ocA 4 evsPartial).snapshots.getD 0 [default] = [] ∧
    ((onRunExec rowsA ocA 4 evsPartial).snapshots.getD 1 []).length = 1 := by
  refine ⟨by decide, by decide, by decide⟩

/-- C2 (amended): in `onRun`, each published snapshot holds exactly one entry
per *completed* identifier, in input order (it is a sublist of the final
input-ordered table, every entry being the definitive outcome of its own
identifier), and entries are never removed (snapshot sizes never decrease);
the placeholder behaviour holds in the `loadWealthManagers` path: there the
first published table is one placeholder (`status = "ok"`, empty record) per
identifier, and every later snapshot still has exactly one entry per
identifier, overwritten in place (the entry at index `i` always names
company `i`). -/
theorem C2_snapshot_evolution (inputRows : List InputRow) (oc : Nat → FetchOutcome)
    (hc : Nat) (evs : List SchedEv) (companies : List String) (det : Nat → DetailOutcome)
    (hne : inputRows ≠ []) (hval : validRows inputRows ≠ []) :
    ((∀ t ∈ (onRunExec inputRows oc hc evs).snapshots,
        List.Sublist t (fullTable (validRows inputRows) oc)) ∧
      List.Chain' (· ≤ ·) ((onRunExec inputRows oc hc evs).snapshots.map List.length)) ∧
    ((wmRun companies det).snapshots.head? = some (companies.map placeholderRow) ∧
      (∀ nm, (placeholderRow nm).company_name = nm ∧ (placeholderRow nm).status = true ∧
        (placeholderRow nm).error = none ∧ (placeholderRow nm).phone = none ∧
        (placeholderRow nm).country = none ∧ (placeholderRow nm).city = none ∧
        (placeholderRow nm).homepage = none ∧ (placeholderRow nm).raw_text = none) ∧
      ∀ t ∈ (wmRun companies det).snapshots, t.length = companies.length ∧
        ∀ m, m < companies.length →
          (t.getD m default).company_name = companies.getD m "") := by
  have hinv := onRunExec_sinv inputRows oc hc evs hne hval
  have hwm := wmRun_inv companies det
  refine ⟨⟨hinv.snap_sub, hinv.snap_mono⟩, ?_, ?_, ?_⟩
  · exact hwm.shead
  · intro nm
    exact ⟨rfl, rfl, rfl, rfl, rfl, rfl, rfl, rfl⟩
  · intro t ht
    exact ⟨hwm.slen t ht, hwm.sname t ht⟩

theorem C2_snapshot_evolution_witness :
    ((∀ t ∈ (onRunExec rowsA ocA 4 evsPartial).snapshots,
        List.Sublist t (fullTable (validRows rowsA) ocA)) ∧
      List.Chain' (· ≤ ·) ((onRunExec rowsA ocA 4 evsPartial).snapshots.map List.length)) ∧
    ((wmRun companiesA detA).snapshots.head? = some (companiesA.map placeholderRow) ∧
      (∀ nm, (placeholderRow nm).company_name = nm ∧ (placeholderRow nm).status = true ∧
        (placeholderRow nm).error = none ∧ (placeholderRow nm).phone = none ∧
        (placeholderRow nm).country = none ∧ (placeholderRow nm).city = none ∧
        (placeholderRow nm).homepage = none ∧ (placeholderRow nm).raw_text = none) ∧
      ∀ t ∈ (wmRun companiesA detA).snapshots, t.length = companiesA.length ∧
        ∀ m, m < companiesA.length →
          (t.getD m default).company_name = companiesA.getD m "") :=
  C2_snapshot_evolution rowsA ocA 4 evsPartial companiesA detA (by decide) (by decide)

/-- C3: if exactly one identifier's fetch fails and all others succeed, then in
the final table of a completed run that one entry has `status = "error"` with a
non-empty human-readable reason, every other entry has `status = "ok"` with no
error, and a completing schedule exists, so the batch still reaches `Done`. -/
theorem C3_single_failure_isolated (inputRows : List InputRow) (oc : Nat → FetchOutcome)
    (hc : Nat) (evs : List SchedEv) (e : Nat) (msg : String)
    (hne : inputRows ≠ []) (hval : validRows inputRows ≠ [])
    (he : e < (validRows inputRows).length)
    (hfail : oc e = FetchOutcome.fail msg)
    (hok : ∀ j, j < (validRows inputRows).length → j ≠ e → (oc j).isOk = true)
    (hdone : (onRunExec inputRows oc hc evs).status = Status.done) :
    (((onRunExec inputRows oc hc evs).out.filterMap id).getD e default).status = false ∧
    (∃ m, (((onRunExec inputRows oc hc evs).out.filterMap id).getD e default).error = some m ∧
      m ≠ "") ∧
    (∀ j, j < (validRows inputRows).length → j ≠ e →
      (((onRunExec inputRows oc hc evs).out.filterMap id).getD j default).status = true ∧
      (((onRunExec inputRows oc hc evs).out.filterMap id).getD j default).error = none) ∧
    ∃ evs2, (onRunExec inputRows oc hc evs2).status = Status.done := by
  rw [onRunExec_done_filterMap inputRows oc hc evs hne hval hdone]
  refine ⟨?_, ?_, ?_, ?_⟩
  · rw [fullTable_getD _ oc e he, hfail]
    rfl
  · rw [fullTable_getD _ oc e he, hfail]
    by_cases hm : msg = ""
    · subst hm
      exact ⟨"Abruf fehlgeschlagen", by simp [workerEntry], by decide⟩
    · exact ⟨msg, by simp [workerEntry, hm], hm⟩
  · intro j hj hje
    rw [fullTable_getD _ oc j hj]
    have hjok := hok j hj hje
    cases hoc : oc j with
    | ok a b c d => exact ⟨rfl, rfl⟩
    | fail m => rw [hoc] at hjok; simp [FetchOutcome.isOk] at hjok
  · exact ⟨completingEvs (validRows inputRows).length,
      onRunExec_reaches_done inputRows oc hc hne hval⟩

theorem C3_witness :
    (((onRunExec rowsA ocA 4 evsOutOfOrder).out.filterMap id).getD 2 default).status = false ∧
    (∃ m, (((onRunExec rowsA ocA 4 evsOutOfOrder).out.filterMap id).getD 2 default).error =
      some m ∧ m ≠ "") ∧
    (∀ j, j < (validRows rowsA).length → j ≠ 2 →
      (((onRunExec rowsA ocA 4 evsOutOfOrder).out.filterMap id).getD j default).status = true ∧
      (((onRunExec rowsA ocA 4 evsOutOfOrder).out.filterMap id).getD j default).error = none) ∧
    ∃ evs2, (onRunExec rowsA ocA 4 evs2).status = Status.done :=
  C3_single_failure_isolated rowsA ocA 4 evsOutOfOrder 2 "HTTP 500" (by decide) (by decide)
    (by decide) (by decide) (by decide) (by decide)

/-- C4: the published progress sequence of a batch run is monotonically
non-decreasing, and when the run has completed (status `done` or `failed`) it
reached `done` exactly when progress `100` was published; the sequential
`loadWealthManagers` run likewise publishes a monotone progress sequence,
always reaches `done`, and always publishes `100`. -/
theorem C4_progress_monotone_done (inputRows : List InputRow) (oc : Nat → FetchOutcome)
    (hc : Nat) (evs : List SchedEv) (companies : List String) (det : Nat → DetailOutcome)
    (hne : inputRows ≠ []) :
    List.Chain' (· ≤ ·) (onRunExec inputRows oc hc evs).progressLog ∧
    ((onRunExec inputRows oc hc evs).status = Status.done ∨
      (onRunExec inputRows oc hc evs).status = Status.failed →
      ((onRunExec inputRows oc hc evs).status = Status.done ↔
        100 ∈ (onRunExec inputRows oc hc evs).progressLog)) ∧
    List.Chain' (· ≤ ·) (wmRun companies det).progressLog ∧
    (wmRun companies det).status = Status.done ∧
    100 ∈ (wmRun companies det).progressLog := by
  have hwm := wmRun_inv companies det
  refine ⟨?_, ?_, ?_, rfl, ?_⟩
  · by_cases hval : validRows inputRows = []
    · simp only [onRunExec]
      rw [if_neg (by simpa using hne), if_pos (by simpa using hval)]
      simp [failedRunState]
    · exact (onRunExec_sinv inputRows oc hc evs hne hval).plog_mono
  · intro hcomplete
    by_cases hval : validRows inputRows = []
    · have hfs : onRunExec inputRows oc hc evs = failedRunState := by
        simp only [onRunExec]
        rw [if_neg (by simpa using hne), if_pos (by simpa using hval)]
      rw [hfs]
      constructor
      · intro hd
        cases hd
      · intro hmem
        simp [failedRunState] at hmem
    · have hinv := onRunExec_sinv inputRows oc hc evs hne hval
      constructor
      · intro hdone
        obtain ⟨hq, hf⟩ := hinv.dn hdone
        have hcompleted : (onRunExec inputRows oc hc evs).completed =
            (validRows inputRows).length := by
          have := hinv.comp
          rw [hq, hf] at this
          simpa using this
        have hprog : (onRunExec inputRows oc hc evs).progress = 100 := by
          rw [hinv.prog, hcompleted, jsRound100_total (validRows_length_pos hval)]
        have := hinv.plog_last
        rw [hprog] at this
        exact mem_of_getLast? this
      · intro _
        rcases hinv.stat with hrun | hdone
        · rcases hcomplete with hd | hf
          · exact hd
          · rw [hrun] at hf
            cases hf
        · exact hdone
  · show List.Chain' (· ≤ ·) ((wmLoop companies.length det companies.length 0 _).progressLog ++ [100])
    rw [List.chain'_append]
    refine ⟨hwm.pmono, List.chain'_singleton _, ?_⟩
    intro x hx y hy
    simp only [List.head?_cons, Option.mem_def, Option.some.injEq] at hy
    subst hy
    exact le_trans (hwm.plast x hx) (jsRound100_le_100 (le_refl _))
  · show 100 ∈ (wmLoop companies.length det companies.length 0 _).progressLog ++ [100]
    simp

theorem C4_witness :
    List.Chain' (· ≤ ·) (onRunExec rowsA ocA 4 evsOutOfOrder).progressLog ∧
    ((onRunExec rowsA ocA 4 evsOutOfOrder).status = Status.done ∨
      (onRunExec rowsA ocA 4 evsOutOfOrder).status = Status.failed →
      ((onRunExec rowsA ocA 4 evsOutOfOrder).status = Status.done ↔
        100 ∈ (onRunExec rowsA ocA 4 evsOutOfOrder).progressLog)) ∧
    List.Chain' (· ≤ ·) (wmRun companiesA detA).progressLog ∧
    (wmRun companiesA detA).status = Status.done ∧
    100 ∈ (wmRun companiesA detA).progressLog :=
  C4_progress_monotone_done rowsA ocA 4 evsOutOfOrder companiesA detA (by decide)

/-- C5: with concurrency budget `K = min(4, hardwareConcurrency || 2)` and more
valid identifiers than `K`, in every reachable state of every schedule at most
`K` jobs are in flight, the in-flight jobs are pairwise distinct, and no
in-flight job has already been processed (its slot is still empty) — the
atomic pop-and-dispatch never hands one identifier to two workers. -/
theorem C5_concurrency_bound (inputRows : List InputRow) (oc : Nat → FetchOutcome)
    (hc : Nat) (evs : List SchedEv) (hne : inputRows ≠ []) (hval : validRows inputRows ≠ [])
    (_hNK : concLimit hc < (validRows inputRows).length) :
    (onRunExec inputRows oc hc evs).inflight.length ≤ concLimit hc ∧
    (onRunExec inputRows oc hc evs).inflight.Nodup ∧
    ∀ j ∈ (onRunExec inputRows oc hc evs).inflight,
      (onRunExec inputRows oc hc evs).out[j]? = some none := by
  have hinv := onRunExec_sinv inputRows oc hc evs hne hval
  refine ⟨hinv.bound, (List.nodup_append.mp hinv.nd).2.1, ?_⟩
  intro j hj
  exact hinv.pend j (List.mem_append.mpr (Or.inr hj))

theorem C5_witness :
    (onRunExec rowsA ocA 4 evsPartial).inflight.length ≤ concLimit 4 ∧
    (onRunExec rowsA ocA 4 evsPartial).inflight.Nodup ∧
    ∀ j ∈ (onRunExec rowsA ocA 4 evsPartial).inflight,
      (onRunExec rowsA ocA 4 evsPartial).out[j]? = some none :=
  C5_concurrency_bound rowsA ocA 4 evsPartial (by decide) (by decide) (by decide)

/-! ### Properties: C9: input parsing and deduplication -/

theorem dedupFirst_sublist : ∀ (l seen : List String), List.Sublist (dedupFirst l seen) l
  | [], _ => List.Sublist.refl _
  | t :: ts, seen => by
    simp only [dedupFirst]
    split
    · exact (dedupFirst_sublist ts seen).cons t
    · exact (dedupFirst_sublist ts (jsLower t :: seen)).cons₂ t

theorem dedupFirst_lower_nodup :
    ∀ (l seen : List String),
      ((dedupFirst l seen).map jsLower).Nodup ∧ ∀ t ∈ dedupFirst l seen, jsLower t ∉ seen
  | [], _ => by simp [dedupFirst]
  | t :: ts, seen => by
    simp only [dedupFirst]
    split
    · next hmem =>
      obtain ⟨h1, h2⟩ := dedupFirst_lower_nodup ts seen
      exact ⟨h1, fun r hr => h2 r hr⟩
    · next hmem =>
      obtain ⟨h1, h2⟩ := dedupFirst_lower_nodup ts (jsLower t :: seen)
      constructor
      · rw [List.map_cons, List.nodup_cons]
        refine ⟨?_, h1⟩
        intro hcontra
        obtain ⟨r, hr, hre⟩ := List.mem_map.mp hcontra
        exact (h2 r hr) (by rw [hre]; exact List.mem_cons_self _ _)
      · intro r hr
        rcases List.mem_cons.mp hr with h | h
        · subst h; exact hmem
        · intro hseen
          exact (h2 r h) (List.mem_cons_of_mem _ hseen)

theorem dedupFirst_complete :
    ∀ (l seen : List String) (t : String), t ∈ l →
      jsLower t ∈ seen ∨ ∃ r ∈ dedupFirst l seen, jsLower r = jsLower t
  | [], _, t, h => by cases h
  | a :: ts, seen, t, h => by
    simp only [dedupFirst]
    rcases List.mem_cons.mp h with rfl | hts
    · split
      · next hmem => exact Or.inl hmem
      · next hmem => exact Or.inr ⟨t, List.mem_cons_self _ _, rfl⟩
    · split
      · next hmem => exact dedupFirst_complete ts seen t hts
      · next hmem =>
        rcases dedupFirst_complete ts (jsLower a :: seen) t hts with hin | ⟨r, hr, hre⟩
        · rcases List.mem_cons.mp hin with heq | hin'
          · exact Or.inr ⟨a, List.mem_cons_self _ _, heq.symm⟩
          · exact Or.inl hin'
        · exact Or.inr ⟨r, List.mem_cons_of_mem _ hr, hre⟩

theorem parseTextToRows_names (text : String) :
    (parseTextToRows text).map (fun r => r.company_name) = dedupFirst (tokensOf text) [] := by
  unfold parseTextToRows
  rw [List.map_map]
  have hcomp : ((fun r : InputRow => r.company_name) ∘
      fun p : Nat × String =>
        ({ id := p.1 + 1, company_name := p.2, valid := true } : InputRow)) = Prod.snd := rfl
  rw [hcomp]
  simp

/-- C9: parsing splits the text on newlines and commas, trims each token, drops
empty tokens (that is exactly `tokensOf`), and deduplicates case-insensitively:
the emitted names form a sublist of the token list (order preserved, each kept
occurrence verbatim, hence first-seen casing), no two emitted names share a
lowercase key, every token is represented by some emitted name with the same
lowercase key; `"Acme\nacme, ACME Inc"` yields exactly `"Acme"` then
`"ACME Inc"`. -/
theorem C9_parse_dedup (text : String) :
    List.Sublist ((parseTextToRows text).map (fun r => r.company_name)) (tokensOf text) ∧
    ((parseTextToRows text).map (fun r => jsLower r.company_name)).Nodup ∧
    (∀ t ∈ tokensOf text, ∃ r ∈ parseTextToRows text, jsLower r.company_name = jsLower t) ∧
    parseTextToRows "Acme\nacme, ACME Inc" =
      [{ id := 1, company_name := "Acme", valid := true },
       { id := 2, company_name := "ACME Inc", valid := true }] := by
  refine ⟨?_, ?_, ?_, by decide⟩
  · rw [parseTextToRows_names]
    exact dedupFirst_sublist _ _
  · have : (parseTextToRows text).map (fun r => jsLower r.company_name) =
        ((parseTextToRows text).map (fun r => r.company_name)).map jsLower := by
      rw [List.map_map]
      rfl
    rw [this, parseTextToRows_names]
    exact (dedupFirst_lower_nodup _ _).1
  · intro t ht
    rcases dedupFirst_complete (tokensOf text) [] t ht with hin | ⟨r, hr, hre⟩
    · cases hin
    · rw [← parseTextToRows_names] at hr
      obtain ⟨row, hrow, hrowname⟩ := List.mem_map.mp hr
      exact ⟨row, hrow, by rw [hrowname]; exact hre⟩

theorem C9_witness :
    List.Sublist ((parseTextToRows "Acme\nacme, ACME Inc").map (fun r => r.company_name))
      (tokensOf "Acme\nacme, ACME Inc") ∧
    ((parseTextToRows "Acme\nacme, ACME Inc").map (fun r => jsLower r.company_name)).Nodup ∧
    (∀ t ∈ tokensOf "Acme\nacme, ACME Inc", ∃ r ∈ parseTextToRows "Acme\nacme, ACME Inc",
      jsLower r.company_name = jsLower t) ∧
    parseTextToRows "Acme\nacme, ACME Inc" =
      [{ id := 1, company_name := "Acme", valid := true },
       { id := 2, company_name := "ACME Inc", valid := true }] :=
  C9_parse_dedup "Acme\nacme, ACME Inc"

/-! ### Properties: C7 / C8 theorems -/

theorem applyRow_keeps_set (r : ProfileResult) (cells : List String) :
    (∀ p, r.phone = some p → (applyRow r cells).phone = some p) ∧
    (∀ c, r.country = some c → (applyRow r cells).country = some c) ∧
    (∀ ci, r.city = some ci → (applyRow r cells).city = some ci) := by
  cases cells with
  | nil => exact ⟨fun p h => h, fun c h => h, fun ci h => h⟩
  | cons c0 t =>
    cases t with
    | nil => exact ⟨fun p h => h, fun c h => h, fun ci h => h⟩
    | cons c1 rest =>
      refine ⟨?_, ?_, ?_⟩ <;> intro v hv <;> simp only [applyRow] <;> split
      · next hcond => exact absurd hv (by rw [hcond.2.2]; simp)
      · split
        · exact hv
        · split
          · exact hv
          · exact hv
      · next hcond => exact hv
      · split
        · next hcond => exact absurd hv (by rw [hcond.2.2]; simp)
        · split
          · exact hv
          · exact hv
      · next hcond => exact hv
      · split
        · exact hv
        · split
          · next hcond => exact absurd hv (by rw [hcond.2.2]; simp)
          · exact hv

theorem scanRows_keeps_set (rows : List (List Char)) :
    ∀ (r : ProfileResult),
      (∀ p, r.phone = some p → (scanRows rows r).phone = some p) ∧
      (∀ c, r.country = some c → (scanRows rows r).country = some c) ∧
      (∀ ci, r.city = some ci → (scanRows rows r).city = some ci) := by
  induction rows with
  | nil => exact fun r => ⟨fun p h => h, fun c h => h, fun ci h => h⟩
  | cons row rows ih =>
    intro r
    obtain ⟨h1, h2, h3⟩ := applyRow_keeps_set r (rowCells row)
    obtain ⟨g1, g2, g3⟩ := ih (applyRow r (rowCells row))
    exact ⟨fun p h => g1 p (h1 p h), fun c h => g2 c (h2 c h), fun ci h => g3 ci (h3 ci h)⟩

theorem fetchProfileAttributes_keeps_docScan (html : String) :
    (∀ p, (docTableScan html).phone = some p → (fetchProfileAttributes html).phone = some p) ∧
    (∀ c, (docTableScan html).country = some c →
      (fetchProfileAttributes html).country = some c) ∧
    (∀ ci, (docTableScan html).city = some ci → (fetchProfileAttributes html).city = some ci) := by
  simp only [fetchProfileAttributes]
  split
  · exact ⟨fun p h => h, fun c h => h, fun ci h => h⟩
  · split
    · exact ⟨fun p h => h, fun c h => h, fun ci h => h⟩
    · exact scanRows_keeps_set _ (docTableScan html)

/-- C7 counterexample: on a page where the document-wide table scan yields
phone `111` and the profile-section-scoped scan yields phone `222`, the merged
result is `111` — the claim, which says the section-scoped match wins, would
require `222`. -/
theorem C7_counterexample :
    (docTableScan mergedPrecedenceHtml).phone = some "111" ∧
    (sectionOnlyScan mergedPrecedenceHtml).phone = some "222" ∧
    (fetchProfileAttributes mergedPrecedenceHtml).phone = some "111" := by
  refine ⟨by decide, by decide, by decide⟩

/-- C7 (amended): the details-route extractor runs the whole-document table
scan first; for each field, a value found there is kept and the
profile-section-scoped scan can only fill fields the document-wide scan left
empty — the section is the fallback, not the winner.  On a page whose only
phone row sits in the profile section, the merged result does take it from
there. -/
theorem C7_doc_scan_wins (html : String) :
    (∀ p, (docTableScan html).phone = some p → (fetchProfileAttributes html).phone = some p) ∧
    (∀ c, (docTableScan html).country = some c →
      (fetchProfileAttributes html).country = some c) ∧
    (∀ ci, (docTableScan html).city = some ci → (fetchProfileAttributes html).city = some ci) ∧
    (docTableScan sectionOnlyHtml).phone = none ∧
    (fetchProfileAttributes sectionOnlyHtml).phone = some "222" := by
  obtain ⟨h1, h2, h3⟩ := fetchProfileAttributes_keeps_docScan html
  exact ⟨h1, h2, h3, by decide, by decide⟩

theorem C7_doc_scan_wins_witness :
    (∀ p, (docTableScan mergedPrecedenceHtml).phone = some p →
      (fetchProfileAttributes mergedPrecedenceHtml).phone = some p) ∧
    (∀ c, (docTableScan mergedPrecedenceHtml).country = some c →
      (fetchProfileAttributes mergedPrecedenceHtml).country = some c) ∧
    (∀ ci, (docTableScan mergedPrecedenceHtml).city = some ci →
      (fetchProfileAttributes mergedPrecedenceHtml).city = some ci) ∧
    (docTableScan sectionOnlyHtml).phone = none ∧
    (fetchProfileAttributes sectionOnlyHtml).phone = some "222" :=
  C7_doc_scan_wins mergedPrecedenceHtml

/-- C8 counterexample: the list route's copy of `fetchProfileAttributes`
recognizes only the literal key `phone`, so on a fixture whose label is
`Telephone` it leaves the phone field empty, refuting "this holds for every
detail-fetch path of the program". -/
theorem C8_counterexample :
    (fetchProfileAttributesList telFixtureHtml).phone = none ∧
    (fetchProfileAttributesList telFixtureHtml).country = some "Switzerland" := by
  refine ⟨by decide, by decide⟩

/-- C8 (amended): in the details-route extractor a row with at least two cells
whose key cell, trimmed and lowercased, is `phone`, `telephone` or `tel` and
whose value cell is non-empty populates the phone field; the first non-empty
match wins and later duplicate keys are ignored (a set phone is never
overwritten); the `Telephone` fixture is fully extracted there.  The
list-route copy recognizes only the literal key `phone` (with exactly two
cells), so the same fixture leaves its phone field empty. -/
theorem C8_phone_synonyms (r : ProfileResult) (c0 c1 : String) (rest : List String)
    (hkey : jsTrim (jsLower c0) = "phone" ∨ jsTrim (jsLower c0) = "telephone" ∨
      jsTrim (jsLower c0) = "tel")
    (hval : jsTrim c1 ≠ "") (hempty : r.phone = none) :
    (applyRow r (c0 :: c1 :: rest)).phone = some (jsTrim c1) ∧
    (∀ (r' : ProfileResult) (cells : List String) (p : String), r'.phone = some p →
      (applyRow r' cells).phone = some p) ∧
    (fetchProfileAttributes telFixtureHtml).phone = some "+41 22 555 1234" ∧
    (fetchProfileAttributes telFixtureHtml).country = some "Switzerland" ∧
    (fetchProfileAttributes telFixtureHtml).city = some "Geneva" ∧
    (fetchProfileAttributesList telFixtureHtml).phone = none := by
  refine ⟨?_, ?_, by decide, by decide, by decide, by decide⟩
  · simp only [applyRow]
    rw [if_pos ⟨hkey, hval, hempty⟩]
  · intro r' cells p hp
    exact (applyRow_keeps_set r' cells).1 p hp

theorem C8_phone_synonyms_witness :
    (applyRow { } ["Telephone", "+41 22 555 1234"]).phone = some (jsTrim "+41 22 555 1234") ∧
    (∀ (r' : ProfileResult) (cells : List String) (p : String), r'.phone = some p →
      (applyRow r' cells).phone = some p) ∧
    (fetchProfileAttributes telFixtureHtml).phone = some "+41 22 555 1234" ∧
    (fetchProfileAttributes telFixtureHtml).country = some "Switzerland" ∧
    (fetchProfileAttributes telFixtureHtml).city = some "Geneva" ∧
    (fetchProfileAttributesList telFixtureHtml).phone = none :=
  C8_phone_synonyms { } "Telephone" "+41 22 555 1234" [] (by decide) (by decide) rfl

/-! ### Properties: The answer-text parser (`extractCompanyData`, `src/app/api/company/route.ts`) -/

/-- C6 counterexample: the bracket-wrapped placeholder value `[placeholder]`
is not treated as absent — the parser strips the brackets and keeps the value,
so the claim's "bracket-wrapped placeholder syntax is treated as absent"
fails at this input. -/
theorem C6_counterexample :
    (extractCompanyData answerBracket "X").homepage = some "placeholder" := by decide

/-- C6 (amended): a labeled value equal to the fixed sentinel `Not found` is
treated as absent; a non-empty, non-sentinel value is always kept, after
stripping one leading `[` and one trailing `]` (bracket-wrapped values are
kept stripped, not dropped); the spec's example input yields
homepage `https://example.com` with the contact page absent. -/
theorem C6_sentinel_absent_brackets_kept (text name : String) :
    (extractAfterLabel "Homepage" text = "Not found" →
      (extractCompanyData text name).homepage = none) ∧
    (extractAfterLabel "Contact Page" text = "Not found" →
      (extractCompanyData text name).contact_page = none) ∧
    (extractAfterLabel "Homepage" text ≠ "" → extractAfterLabel "Homepage" text ≠ "Not found" →
      extractSection "CONTACT INFO" text ≠ "" →
      (extractCompanyData text name).homepage =
        some (stripOuterBrackets (extractAfterLabel "Homepage" text))) ∧
    extractCompanyData answerExample "Example" =
      { company := "Example", homepage := some "https://example.com", contact_page := none } := by
  refine ⟨?_, ?_, ?_, by decide⟩
  · intro h
    simp only [extractCompanyData, h]
    split
    · split
      · split
        · next hcond => exact absurd rfl hcond.2
        · rfl
      · split
        · next hcond => exact absurd rfl hcond.2
        · rfl
    · rfl
  · intro h
    simp only [extractCompanyData, h]
    split
    · rw [if_neg (by simp)]
      split
      · rfl
      · rfl
    · rfl
  · intro h1 h2 h3
    simp only [extractCompanyData]
    rw [if_pos h3]
    split
    · split
      · rfl
      · next hcond => exact absurd ⟨h1, h2⟩ hcond
    · split
      · rfl
      · next hcond => exact absurd ⟨h1, h2⟩ hcond

theorem C6_witness :
    (extractCompanyData answerBracket "X").homepage =
      some (stripOuterBrackets (extractAfterLabel "Homepage" answerBracket)) ∧
    (extractCompanyData answerExample "Example").contact_page = none :=
  ⟨((C6_sentinel_absent_brackets_kept answerBracket "X").2.2.1) (by decide) (by decide)
      (by decide),
    ((C6_sentinel_absent_brackets_kept answerExample "Example").2.1) (by decide)⟩

/-! ### Properties: The POST handler of `/api/company` (C10) -/

/-- C10: whenever the body lacks both `company` and `name`, or the effective
value (company, falling back to name) trims to the empty string, the handler
answers 400 with an error message and makes no answer-API call — in normal
and enhance mode alike, and whatever the collaborator would have done. -/
theorem C10_empty_company_rejected (body : CompanyReqBody) (collabOk : Bool)
    (h : jsTrim (jsOrElse body.company body.name) = "") :
    (POSTcompany collabOk body).status = 400 ∧
    (POSTcompany collabOk body).answerApiCalls = 0 ∧
    (POSTcompany collabOk body).errorMsg ≠ none := by
  simp only [POSTcompany, h]
  refine ⟨rfl, rfl, by simp⟩

theorem C10_witness :
    ((POSTcompany true { enhance := false }).status = 400 ∧
      (POSTcompany true { enhance := false }).answerApiCalls = 0 ∧
      (POSTcompany true { enhance := false }).errorMsg ≠ none) ∧
    ((POSTcompany false { company := some "   ", enhance := true }).status = 400 ∧
      (POSTcompany false { company := some "   ", enhance := true }).answerApiCalls = 0 ∧
      (POSTcompany false { company := some "   ", enhance := true }).errorMsg ≠ none) :=
  ⟨C10_empty_company_rejected { enhance := false } true (by decide),
    C10_empty_company_rejected { company := some "   ", enhance := true } false (by decide)⟩
